import Mathlib

/-!
Shallow embedding of the document ingestion pipeline
(`src/ingestion/ingest_pipeline.py`): paragraph segmentation
(`_split_into_paragraphs`), dual-mode entity extraction
(`_extract_entities_spacy` for model mode, `_extract_entities_simple`
for the heuristic fallback mode), relationship inference and
document-wide identity resolution.

Strings are modelled as `List Char`, with Python's ASCII string
operations made explicit.  Paragraph ids `"p1", "p2", …` are modelled
by their numeric index `1, 2, …`.  The md5-truncated model-mode entity
id is modelled by the md5 *input* string
`"e_" ++ normalized_text ++ "_" ++ native_label` (the code relies on
the digest being collision-free on these inputs; the model keeps the
input itself).  The spaCy tagger and dependency parser are external:
model mode is parameterised by a function producing the tagger output
(`SpacyDoc`) for a paragraph text.
-/

def str (s : String) : List Char := s.toList

/-- ASCII whitespace as recognised by Python `str.strip` and `str.split`. -/
def isSpaceC (c : Char) : Bool :=
  decide (c = ' ') || decide (c = '\t') || decide (c = '\n') ||
  decide (c = '\r') || decide (c = '\x0B') || decide (c = '\x0C')

/-- Python `s.strip()`: drop ASCII whitespace from both ends. -/
def stripChars (s : List Char) : List Char :=
  ((s.dropWhile isSpaceC).reverse.dropWhile isSpaceC).reverse

/-- Python `s.strip(chars)`: drop the given characters from both ends. -/
def stripSet (cs : List Char) (s : List Char) : List Char :=
  ((s.dropWhile (fun c => decide (c ∈ cs))).reverse.dropWhile
    (fun c => decide (c ∈ cs))).reverse

/-- ASCII lower-casing of one character (Python `str.lower`, ASCII range). -/
def lowerC (c : Char) : Char :=
  if 65 ≤ c.toNat ∧ c.toNat ≤ 90 then Char.ofNat (c.toNat + 32) else c

/-- ASCII upper-casing of one character (Python `str.upper`, ASCII range). -/
def upperC (c : Char) : Char :=
  if 97 ≤ c.toNat ∧ c.toNat ≤ 122 then Char.ofNat (c.toNat - 32) else c

/-- Python `c.isupper()` for ASCII characters. -/
def isUpperC (c : Char) : Bool := decide (65 ≤ c.toNat ∧ c.toNat ≤ 90)

def lowerL (s : List Char) : List Char := s.map lowerC

/-- Python `s.capitalize()`: first character upper-cased, rest lower-cased. -/
def capitalizeL : List Char → List Char
  | [] => []
  | c :: r => upperC c :: r.map lowerC

/-- Python `s.replace(" ", "_")`. -/
def replaceSpUnd (s : List Char) : List Char :=
  s.map (fun c => if c = ' ' then '_' else c)

/-- Helper of `splitWs`: accumulate the current word (reversed). -/
def splitWsAux : List Char → List Char → List (List Char)
  | [], acc => if acc.isEmpty then [] else [acc.reverse]
  | c :: rest, acc =>
    if isSpaceC c then
      if acc.isEmpty then splitWsAux rest []
      else acc.reverse :: splitWsAux rest []
    else splitWsAux rest (c :: acc)

/-- Python `s.split()` with no argument: split on whitespace runs,
discarding empty pieces. -/
def splitWs (s : List Char) : List (List Char) := splitWsAux s []

/-- Python `" ".join(words)`. -/
def joinSpace : List (List Char) → List Char
  | [] => []
  | [w] => w
  | w :: ws => w ++ ' ' :: joinSpace ws

/-- Python `" ".join(s.split())`: whitespace normalization used by the
segmenter when emitting a paragraph. -/
def normalizeWs (s : List Char) : List Char := joinSpace (splitWs s)

/-- Cons a character onto the first piece of a split result. -/
def consHead (c : Char) : List (List Char) → List (List Char)
  | [] => [[c]]
  | b :: bs => (c :: b) :: bs

/-- Python `s.split("\n\n")`: non-overlapping left-to-right split on the
double line break. -/
def splitNN : List Char → List (List Char)
  | [] => [[]]
  | c :: rest =>
    if c = '\n' then
      match rest with
      | c₂ :: rest₂ =>
        if c₂ = '\n' then [] :: splitNN rest₂
        else consHead c (consHead c₂ (splitNN rest₂))
      | [] => [[c]]
    else consHead c (splitNN rest)

/-- Python `s.split("\n")`. -/
def splitNL : List Char → List (List Char)
  | [] => [[]]
  | c :: rest =>
    if c = '\n' then [] :: splitNL rest else consHead c (splitNL rest)

/-- Python `needle in hay` on strings: substring containment. -/
def hasPfx : List Char → List Char → Bool
  | [], _ => true
  | _ :: _, [] => false
  | a :: as, b :: bs => decide (a = b) && hasPfx as bs

def subIn (needle : List Char) : List Char → Bool
  | [] => needle.isEmpty
  | c :: rest => hasPfx needle (c :: rest) || subIn needle rest

/-- One paragraph of the structured result (`{"id": …, "text": …}` plus
the `entity_ids` list attached by the entity-extraction pass).  The
Python id string `"p{n}"` is modelled by the number `n`. -/
structure ParagraphUnit where
  id : Nat
  text : List Char
  entity_ids : List (List Char)
deriving DecidableEq, Repr

/-- Body of the block loop of `_split_into_paragraphs` (lines 174-193):
skip blank blocks, merge a short block into the previous paragraph,
otherwise emit a new whitespace-normalized paragraph.  The paragraph
accumulator is kept in reverse order. -/
def blockStep (acc : List ParagraphUnit) (idx : Nat) (b : List Char) :
    List ParagraphUnit × Nat :=
  let t := stripChars b
  if t = [] then (acc, idx)
  else
    if t.length < 50 then
      match acc with
      | p :: acc' => ({ p with text := p.text ++ ' ' :: t } :: acc', idx)
      | [] =>
        let n := normalizeWs t
        if n = [] then (acc, idx) else ({ id := idx + 1, text := n, entity_ids := [] } :: acc, idx + 1)
    else
      let n := normalizeWs t
      if n = [] then (acc, idx) else ({ id := idx + 1, text := n, entity_ids := [] } :: acc, idx + 1)

/-- Lines 159-171 of the source: regroup consecutive non-blank lines
into blocks when the document used single-newline formatting. -/
def regroupLines : List (List Char) → List (List Char) → List (List Char)
  | [], cur => if cur.isEmpty then [] else [joinSpace cur]
  | l :: ls, cur =>
    let t := stripChars l
    if t.isEmpty then
      if cur.isEmpty then regroupLines ls [] else joinSpace cur :: regroupLines ls []
    else regroupLines ls (cur ++ [t])

/-- Candidate blocks of `_split_into_paragraphs` (lines 153-171): split
on double newlines, falling back to single-newline regrouping for long
texts that produced fewer than 3 blocks. -/
def computeBlocks (raw : List Char) : List (List Char) :=
  let blocks := splitNN raw
  if blocks.length < 3 ∧ raw.length > 500 then regroupLines (splitNL raw) []
  else blocks

/-- The full `_split_into_paragraphs` (lines 144-204), including the
final single-paragraph fallback for text none of whose blocks was
emitted. -/
def splitIntoParagraphs (raw : List Char) : List ParagraphUnit :=
  let s := (computeBlocks raw).foldl (fun s b => blockStep s.1 s.2 b) ([], 0)
  let ps := s.1.reverse
  if ps = [] ∧ stripChars raw ≠ [] then
    let n := normalizeWs raw
    if n = [] then [] else [{ id := 1, text := n, entity_ids := [] }]
  else ps

/-- Invariant of the block loop: the running index equals the number of
emitted paragraphs and the (reversed) accumulator carries the ids
`1, 2, …` in emission order. -/
def paraIdInv (s : List ParagraphUnit × Nat) : Prop :=
  s.2 = s.1.length ∧
    s.1.reverse.map ParagraphUnit.id = (List.range s.1.length).map (· + 1)

/-- The block loop's state paired with a flag recording whether the
merge rule (short non-blank block with a previous paragraph available,
line 181 of the source) has fired for any block so far. -/
def mergeFiredStep (s : (List ParagraphUnit × Nat) × Bool) (b : List Char) :
    (List ParagraphUnit × Nat) × Bool :=
  let t := stripChars b
  let fired := !decide (t = []) && decide (t.length < 50) &&
    !decide (s.1.1 = [])
  (blockStep s.1.1 s.1.2 b, s.2 || fired)

/-- Whether any candidate block of the run triggers the merge rule. -/
def anyMergeFired (raw : List Char) : Bool :=
  ((computeBlocks raw).foldl mergeFiredStep (([], 0), false)).2

/-- The four canonical entity categories. -/
inductive EntLabel where
  | Person
  | Company
  | Location
  | Concept
deriving DecidableEq, Repr

/-- The five relationship types produced by the pipeline. -/
inductive RelType where
  | WORKS_AT
  | LOCATED_IN
  | FOUNDED
  | OWNS
  | RELATED_TO
deriving DecidableEq, Repr

/-- An entity dict of the fallback extractor: `{"id", "label",
"metadata": {"name", …}}`; `mtype` models the optional
`"type": "technology"` metadata of concept entities. -/
structure SimpleEntity where
  id : List Char
  label : EntLabel
  name : List Char
  mtype : Option (List Char)
deriving DecidableEq, Repr

/-- An entity dict of the model-mode extractor.  `name` is the
original-cased stripped span text, `spacy_label` the tagger's native
label.  The `spacy_label_desc` metadata (produced by the external
`spacy.explain`) is outside the model. -/
structure SpacyEntity where
  id : List Char
  label : EntLabel
  name : List Char
  spacy_label : List Char
  start_char : Nat
  end_char : Nat
deriving DecidableEq, Repr

/-- A relationship dict.  `endId` models the Python key `"end"` (a Lean
keyword), `rtype` the key `"type"`, `source` the paragraph id of the
`"source"` metadata; `verb`, `confidence` and `method` model the
optional metadata keys of the same names. -/
structure RelationshipRecord where
  start : List Char
  endId : List Char
  rtype : RelType
  source : Nat
  verb : Option (List Char)
  confidence : Option (List Char)
  method : Option (List Char)
deriving DecidableEq, Repr

/-- The aggregate produced by one document run (`run`, lines 133-141);
metadata/tables are external. -/
structure DocResult (ε : Type) where
  paragraphs : List ParagraphUnit
  entities : List ε
  relationships : List RelationshipRecord
deriving DecidableEq, Repr

/-! Keyword tables of `_extract_entities_simple` (lines 408-411) and
its stopword list (line 434). -/

def person_keywords : List (List Char) :=
  [str "alice", str "bob", str "john", str "mary", str "david", str "sarah",
   str "engineer", str "developer", str "manager", str "director",
   str "ceo", str "cto"]

def company_keywords : List (List Char) :=
  [str "company", str "corporation", str "inc", str "ltd", str "llc",
   str "organization", str "firm", str "enterprise"]

def location_keywords : List (List Char) :=
  [str "bangalore", str "mumbai", str "delhi", str "new york", str "london",
   str "san francisco", str "city", str "location"]

def tech_keywords : List (List Char) :=
  [str "ai", str "machine learning", str "deep learning", str "neural network",
   str "algorithm", str "database", str "graph", str "vector"]

def simple_stopwords : List (List Char) :=
  [str "the", str "this", str "that", str "there", str "company",
   str "corporation"]

/-- Punctuation stripped from tokens: Python `word.strip(".,!?;:")`. -/
def punctChars : List Char := str ".,!?;:"

/-- State threaded through the word/keyword loops of one paragraph in
fallback mode: the document-wide entity list (`entities` and
`entity_map` of the source hold the same records, keyed by id) and the
paragraph's `para_entities` mention list. -/
structure SimpleAcc where
  entities : List SimpleEntity
  mentions : List (List Char)
deriving Repr

/-- Create-once insertion into the document entity map: the body of every
`if entity_id not in entity_map:` block of `_extract_entities_simple`. -/
def addEntityOnce (acc : SimpleAcc) (id : List Char) (label : EntLabel)
    (name : List Char) (mtype : Option (List Char)) : SimpleAcc :=
  if acc.entities.any (fun e => decide (e.id = id)) then acc
  else { acc with entities := acc.entities ++ [⟨id, label, name, mtype⟩] }

/-- Person-extraction step for one token (lines 419-446): known person
keywords append their mention unconditionally; capitalized long
non-stopword tokens without a company indicator append only when the id
is not yet in the paragraph's mention list. -/
def personStep (acc : SimpleAcc) (word : List Char) : SimpleAcc :=
  let word_clean := lowerL (stripSet punctChars word)
  if word_clean ∈ person_keywords then
    let eid := str "e_" ++ word_clean
    let acc := addEntityOnce acc eid .Person (capitalizeL (stripSet punctChars word)) none
    { acc with mentions := acc.mentions ++ [eid] }
  else
    if isUpperC (word.headD ' ') = true ∧ word.length > 3 ∧
        word_clean ∉ simple_stopwords ∧
        (company_keywords.any (fun ck => subIn ck word_clean)) = false then
      let eid := str "e_" ++ word_clean
      let acc := addEntityOnce acc eid .Person (stripSet punctChars word) none
      if eid ∈ acc.mentions then acc
      else { acc with mentions := acc.mentions ++ [eid] }
    else acc

/-- Company-extraction loop (lines 450-479): a token whose successor is a
company indicator names a company; the final token, if it itself
contains an indicator, names its predecessor as the company.  `prev`
carries the previous word (`words[i-1]`). -/
def companyLoop (prev : Option (List Char)) (ws : List (List Char))
    (acc : SimpleAcc) : SimpleAcc :=
  match ws with
  | [] => acc
  | w :: rest =>
    match rest with
    | next :: _ =>
      let next_clean := lowerL (stripSet punctChars next)
      let acc :=
        if next_clean ∈ company_keywords ∨
            (company_keywords.any (fun ck => subIn ck next_clean)) = true then
          let company_name := stripSet punctChars w
          let eid := str "e_" ++ replaceSpUnd (lowerL company_name)
          let acc := addEntityOnce acc eid .Company company_name none
          { acc with mentions := acc.mentions ++ [eid] }
        else acc
      companyLoop (some w) rest acc
    | [] =>
      let word_clean := lowerL (stripSet punctChars w)
      if (company_keywords.any (fun ck => subIn ck word_clean)) = true then
        match prev with
        | some pw =>
          let company_name := stripSet punctChars pw
          let eid := str "e_" ++ replaceSpUnd (lowerL company_name)
          let acc := addEntityOnce acc eid .Company company_name none
          { acc with mentions := acc.mentions ++ [eid] }
        | none => acc
      else acc

/-- Location-extraction step for one keyword (lines 482-492). -/
def locationStep (text_lower : List Char) (acc : SimpleAcc)
    (kw : List Char) : SimpleAcc :=
  if subIn kw text_lower then
    let eid := str "e_" ++ kw
    let acc := addEntityOnce acc eid .Location (capitalizeL kw) none
    { acc with mentions := acc.mentions ++ [eid] }
  else acc

/-- Technology-concept step for one keyword (lines 495-505). -/
def techStep (text_lower : List Char) (acc : SimpleAcc)
    (kw : List Char) : SimpleAcc :=
  if subIn kw text_lower then
    let eid := str "e_" ++ replaceSpUnd kw
    let acc := addEntityOnce acc eid .Concept kw (some (str "technology"))
    { acc with mentions := acc.mentions ++ [eid] }
  else acc

/-- Lookup `entity_map.get(e, {}).get("label")` over the entity list. -/
def labelOfSimple (es : List SimpleEntity) (eid : List Char) : Option EntLabel :=
  (es.find? (fun e => decide (e.id = eid))).map (·.label)

/-- The unconditional Person×Company `WORKS_AT` cross product of the
fallback relationship pass (lines 514-521): one record per pair, with
only the `source` metadata, appended without any duplicate check. -/
def crossWorksAt (pid : Nat) : List (List Char) → List (List Char) →
    List RelationshipRecord
  | [], _ => []
  | p :: ps, cs =>
    cs.map (fun c => ⟨p, c, .WORKS_AT, pid, none, none, none⟩) ++
      crossWorksAt pid ps cs

/-- Fallback-mode state across paragraphs. -/
structure SimpleState where
  entities : List SimpleEntity
  relationships : List RelationshipRecord
  paragraphs : List ParagraphUnit
deriving Repr

/-- One paragraph of `_extract_entities_simple` (lines 413-521). -/
def simpleParaStep (st : SimpleState) (para : ParagraphUnit) : SimpleState :=
  let text_lower := lowerL para.text
  let words := splitWs para.text
  let acc := words.foldl personStep ⟨st.entities, []⟩
  let acc := companyLoop none words acc
  let acc := location_keywords.foldl (locationStep text_lower) acc
  let acc := tech_keywords.foldl (techStep text_lower) acc
  let persons := acc.mentions.filter
    (fun e => decide (labelOfSimple acc.entities e = some .Person))
  let companies := acc.mentions.filter
    (fun e => decide (labelOfSimple acc.entities e = some .Company))
  { entities := acc.entities,
    relationships := st.relationships ++ crossWorksAt para.id persons companies,
    paragraphs := st.paragraphs ++ [{ para with entity_ids := acc.mentions }] }

/-- The whole `_extract_entities_simple` over the paragraph list. -/
def extractEntitiesSimple (paras : List ParagraphUnit) : SimpleState :=
  paras.foldl simpleParaStep ⟨[], [], []⟩

/-- Fallback-mode document run: segmentation followed by heuristic
extraction (`run`, lines 117-141, with the external format conversion
already done). -/
def runSimple (raw : List Char) : DocResult SimpleEntity :=
  let st := extractEntitiesSimple (splitIntoParagraphs raw)
  ⟨st.paragraphs, st.entities, st.relationships⟩

/-! Model mode: `_extract_entities_spacy` (lines 206-395).  The spaCy
pipeline itself is external; its per-paragraph output is modelled by
`SpacyDoc`, and the extractor is parameterised by a function
`nlp : List Char → SpacyDoc`. -/

/-- A named-entity span of the tagger output (`doc.ents`): text, native
label, token-index span `[start, stop)` and character offsets. -/
structure SpacyEnt where
  text : List Char
  label : List Char
  start : Nat
  stop : Nat
  start_char : Nat
  end_char : Nat
deriving DecidableEq, Repr

/-- A syntactic child of a token's head (`token.head.children`): its
token index and dependency label. -/
structure SpacyChild where
  i : Nat
  dep : List Char
deriving DecidableEq, Repr

/-- A token of the dependency parse, with the fields of `token` and
`token.head` that the relationship pattern reads. -/
structure SpacyToken where
  i : Nat
  dep : List Char
  headText : List Char
  headPos : List Char
  headChildren : List SpacyChild
deriving DecidableEq, Repr

/-- The tagger/parser output for one paragraph. -/
structure SpacyDoc where
  ents : List SpacyEnt
  tokens : List SpacyToken
deriving Repr

/-- The fixed `spacy_to_label` lookup table (lines 225-241). -/
def spacy_to_label : List (List Char × EntLabel) :=
  [(str "PERSON", .Person), (str "ORG", .Company), (str "GPE", .Location),
   (str "LOC", .Location), (str "MONEY", .Concept), (str "DATE", .Concept),
   (str "TIME", .Concept), (str "PERCENT", .Concept), (str "QUANTITY", .Concept),
   (str "EVENT", .Concept), (str "PRODUCT", .Concept), (str "WORK_OF_ART", .Concept),
   (str "LAW", .Concept), (str "LANGUAGE", .Concept), (str "NORP", .Concept)]

/-- `spacy_to_label.get(ent.label_, "Concept")` (line 258). -/
def spacyToLabel (l : List Char) : EntLabel :=
  ((spacy_to_label.find? (fun p => decide (p.1 = l))).map (·.2)).getD .Concept

/-- The md5 input string `f"e_{text.strip().lower().replace(' ', '_')}_{label}"`
(lines 261-264); the truncated digest is modelled by the input itself,
which the code relies on being digested collision-free. -/
def spacyId (key : List Char × List Char) : List Char :=
  str "e_" ++ replaceSpUnd key.1 ++ '_' :: key.2

/-- Lookup in the `entity_text_to_id` identity map. -/
def lookupKey (m : List ((List Char × List Char) × List Char))
    (k : List Char × List Char) : Option (List Char) :=
  (m.find? (fun p => decide (p.1 = k))).map (·.2)

/-- Model-mode state across paragraphs: document entity list (the source
keeps the same records in `entities` and `entity_map`), the
`entity_text_to_id` identity map, relationships and finished paragraphs. -/
structure SpacyState where
  entities : List SpacyEntity
  keyMap : List ((List Char × List Char) × List Char)
  relationships : List RelationshipRecord
  paragraphs : List ParagraphUnit
deriving Repr

/-- Processing of one tagger span (lines 252-288): spans of stripped
length < 2 are discarded; the identity key `(lowercased stripped text,
native label)` is resolved create-once; the resolved id joins the
paragraph's mention list. -/
def entStep (p : SpacyState × List (List Char)) (ent : SpacyEnt) :
    SpacyState × List (List Char) :=
  if (stripChars ent.text).length < 2 then p
  else
    let key := (lowerL (stripChars ent.text), ent.label)
    match lookupKey p.1.keyMap key with
    | some eid => (p.1, p.2 ++ [eid])
    | none =>
      let eid := spacyId key
      let record : SpacyEntity :=
        ⟨eid, spacyToLabel ent.label, stripChars ent.text, ent.label,
         ent.start_char, ent.end_char⟩
      ({ p.1 with
          entities := p.1.entities ++ [record],
          keyMap := p.1.keyMap ++ [(key, eid)] },
       p.2 ++ [eid])

/-- First entity span covering a token index (the `break` after the
first `ent.start <= i < ent.end` hit, lines 300-304 and 309-313). -/
def firstCovering (ents : List SpacyEnt) (i : Nat) : Option SpacyEnt :=
  ents.find? (fun e => decide (e.start ≤ i ∧ i < e.stop))

/-- Subject resolution (lines 299-304): the first covering span counts
only if it is PERSON-labelled. -/
def subjEnt (ents : List SpacyEnt) (i : Nat) : Option SpacyEnt :=
  match firstCovering ents i with
  | some e => if e.label = str "PERSON" then some e else none
  | none => none

/-- Object resolution (lines 306-313): scan all children with dependency
dobj/pobj/prep; an ORG/GPE/LOC-labelled first-covering span overwrites
the previous candidate, a non-matching one leaves it. -/
def objEnt (ents : List SpacyEnt) (children : List SpacyChild) :
    Option SpacyEnt :=
  children.foldl
    (fun acc ch =>
      if ch.dep = str "dobj" ∨ ch.dep = str "pobj" ∨ ch.dep = str "prep" then
        match firstCovering ents ch.i with
        | some e =>
          if e.label = str "ORG" ∨ e.label = str "GPE" ∨ e.label = str "LOC" then
            some e
          else acc
        | none => acc
      else acc)
    none

def work_verbs : List (List Char) := [str "work", str "employed", str "hired"]

def live_verbs : List (List Char) := [str "live", str "located", str "based"]

def found_verbs : List (List Char) := [str "found", str "create", str "establish"]

def own_verbs : List (List Char) := [str "own", str "acquire", str "purchase"]

/-- Any keyword of the list occurs in the verb text as a substring. -/
def verbMatch (kws : List (List Char)) (v : List Char) : Bool :=
  kws.any (fun k => subIn k v)

/-- Verb-to-relation mapping (lines 322-332): the head verb's text is
lower-cased and checked against the four keyword lists in order, first
match winning, defaulting to RELATED_TO. -/
def relTypeOfVerb (headText : List Char) : RelType :=
  let verb_text := lowerL headText
  if verbMatch work_verbs verb_text then .WORKS_AT
  else if verbMatch live_verbs verb_text then .LOCATED_IN
  else if verbMatch found_verbs verb_text then .FOUNDED
  else if verbMatch own_verbs verb_text then .OWNS
  else .RELATED_TO

/-- Triple equality used by every duplicate check of the model mode. -/
def sameTriple (a b : RelationshipRecord) : Bool :=
  decide (a.start = b.start ∧ a.endId = b.endId ∧ a.rtype = b.rtype)

/-- Append a relationship unless a record with the same
`(start, end, type)` triple exists (lines 334-347, 361-373, 376-390). -/
def addRelIfNew (rels : List RelationshipRecord) (r : RelationshipRecord) :
    List RelationshipRecord :=
  if rels.any (fun x => sameTriple x r) then rels else rels ++ [r]

/-- One token of the dependency-pattern pass (lines 292-347). -/
def tokenStep (pid : Nat) (ents : List SpacyEnt) (st : SpacyState)
    (tok : SpacyToken) : SpacyState :=
  if tok.dep = str "nsubj" ∧ tok.headPos = str "VERB" then
    match subjEnt ents tok.i, objEnt ents tok.headChildren with
    | some se, some oe =>
      match lookupKey st.keyMap (lowerL (stripChars se.text), se.label),
          lookupKey st.keyMap (lowerL (stripChars oe.text), oe.label) with
      | some sid, some oid =>
        let rt := relTypeOfVerb tok.headText
        { st with relationships :=
            (addRelIfNew st.relationships
              ⟨sid, oid, rt, pid, some tok.headText, some (str "medium"), none⟩) }
      | _, _ => st
    | _, _ => st
  else st

/-- Lookup `entity_map.get(eid, {}).get("label")` over the model-mode
entity list. -/
def labelOfSpacy (es : List SpacyEntity) (eid : List Char) : Option EntLabel :=
  (es.find? (fun e => decide (e.id = eid))).map (·.label)

/-- Deduplicated cross-product pass of the model mode (lines 358-390):
each pair goes through the `(start, end, type)` duplicate check, with
confidence "low" and method "co_occurrence". -/
def coOccurLoop (pid : Nat) (rt : RelType) (starts stops : List (List Char))
    (rels : List RelationshipRecord) : List RelationshipRecord :=
  starts.foldl
    (fun acc a =>
      stops.foldl
        (fun acc2 b =>
          addRelIfNew acc2
            ⟨a, b, rt, pid, none, some (str "low"), some (str "co_occurrence")⟩)
        acc)
    rels

/-- One paragraph of `_extract_entities_spacy` (lines 244-393). -/
def spacyParaStep (nlp : List Char → SpacyDoc) (st : SpacyState)
    (para : ParagraphUnit) : SpacyState :=
  let doc := nlp para.text
  let p := doc.ents.foldl entStep (st, [])
  let st := p.1
  let mentions := p.2
  let st := doc.tokens.foldl (tokenStep para.id doc.ents) st
  let persons := mentions.filter
    (fun e => decide (labelOfSpacy st.entities e = some .Person))
  let companies := mentions.filter
    (fun e => decide (labelOfSpacy st.entities e = some .Company))
  let locations := mentions.filter
    (fun e => decide (labelOfSpacy st.entities e = some .Location))
  let st := { st with relationships :=
      (coOccurLoop para.id .WORKS_AT persons companies st.relationships) }
  let st := { st with relationships :=
      (coOccurLoop para.id .LOCATED_IN companies locations st.relationships) }
  { st with paragraphs := st.paragraphs ++ [{ para with entity_ids := mentions }] }

/-- The whole `_extract_entities_spacy` over the paragraph list. -/
def extractEntitiesSpacy (nlp : List Char → SpacyDoc)
    (paras : List ParagraphUnit) : SpacyState :=
  paras.foldl (spacyParaStep nlp) ⟨[], [], [], []⟩

/-- Model-mode document run: segmentation followed by tagger-based
extraction. -/
def runSpacy (nlp : List Char → SpacyDoc) (raw : List Char) :
    DocResult SpacyEntity :=
  let st := extractEntitiesSpacy nlp (splitIntoParagraphs raw)
  ⟨st.paragraphs, st.entities, st.relationships⟩

/-- A small concrete tagger used to exercise the model mode: it marks
"Alice" as a PERSON span and "Acme" as an ORG span whenever the
paragraph is the demo sentence. -/
def demoNlp : List Char → SpacyDoc := fun t =>
  if t = str "Alice works at Acme" then
    { ents := [⟨str "Alice", str "PERSON", 0, 1, 0, 5⟩,
               ⟨str "Acme", str "ORG", 3, 4, 15, 19⟩],
      tokens := [⟨0, str "nsubj", str "works", str "VERB",
                  [⟨2, str "prep"⟩, ⟨3, str "pobj"⟩]⟩] }
  else { ents := [], tokens := [] }

/-- Checker for the document-wide `(start, end, type)` uniqueness
invariant: no later record repeats the triple of an earlier one. -/
def tripleUnique : List RelationshipRecord → Bool
  | [] => true
  | r :: rest => !(rest.any (fun x => sameTriple x r)) && tripleUnique rest

/-- Checker for a run of two consecutive spaces. -/
def noDoubleSpace : List Char → Bool
  | [] => true
  | [_] => true
  | c₁ :: c₂ :: r =>
    !(decide (c₁ = ' ') && decide (c₂ = ' ')) && noDoubleSpace (c₂ :: r)

/-- A paragraph text is collapsed when it contains no newline and no run
of consecutive spaces. -/
def collapsedText (s : List Char) : Bool :=
  s.all (fun c => decide (c ≠ '\n')) && noDoubleSpace s

/-- The identity key a model-mode entity record was created under,
recovered from its metadata: `(lowercased stripped span text, native
tagger label)`. -/
def spacyKey (r : SpacyEntity) : List Char × List Char :=
  (lowerL r.name, r.spacy_label)

/-- A two-paragraph input whose paragraphs both mention the same
person keyword, used to exercise cross-paragraph identity resolution
in fallback mode. -/
def twoParagraphDemo : List Char :=
  str "alice spent the whole week preparing the annual report for the board" ++
    str "\n\n" ++
    str "alice walked across the bridge near the old harbor every single morning"

/-- Invariant of the model-mode identity resolver: the
`entity_text_to_id` map and the entity list are created in lockstep
(same keys, in order), the map's keys never repeat (each key is bound
to one id, once), and every record's id is the deterministic encoding
of its own key. -/
def spacyEntInv (st : SpacyState) : Prop :=
  st.keyMap.map Prod.fst = st.entities.map spacyKey ∧
    (st.keyMap.map Prod.fst).Nodup ∧
    ∀ r ∈ st.entities, r.id = spacyId (spacyKey r)

/-! Theorems. -/

theorem foldl_pres {α σ : Type _} (f : σ → α → σ) (P : σ → Prop)
    (h : ∀ s a, P s → P (f s a)) :
    ∀ (l : List α) (s : σ), P s → P (l.foldl f s)
  | [], _, hs => hs
  | a :: l, s, hs => foldl_pres f P h l (f s a) (h s a hs)

theorem foldl_pres_mem {α σ : Type _} (f : σ → α → σ) (P : σ → Prop)
    (C : α → Prop) :
    ∀ (l : List α), (∀ a, C a → ∀ s, P s → P (f s a)) → (∀ a ∈ l, C a) →
      ∀ s, P s → P (l.foldl f s)
  | [], _, _, _, hs => hs
  | a :: l, h, hc, s, hs =>
    foldl_pres_mem f P C l h (fun x hx => hc x (List.mem_cons_of_mem a hx))
      (f s a) (h a (hc a (List.mem_cons_self a l)) s hs)

/-- C9: for every verb text examined by the model-mode relationship
pattern, the relation type is decided by case-insensitive substring
match with first match winning — employment verbs give WORKS_AT,
residency/location verbs LOCATED_IN, founding verbs FOUNDED,
acquisition verbs OWNS, and a verb matching none of the lists gets the
default RELATED_TO (the mapping is total, so no input is an error). -/
theorem c9_verb_relation_mapping :
    (∀ t, verbMatch work_verbs (lowerL t) = true →
      relTypeOfVerb t = .WORKS_AT) ∧
    (∀ t, verbMatch work_verbs (lowerL t) = false →
      verbMatch live_verbs (lowerL t) = true →
      relTypeOfVerb t = .LOCATED_IN) ∧
    (∀ t, verbMatch work_verbs (lowerL t) = false →
      verbMatch live_verbs (lowerL t) = false →
      verbMatch found_verbs (lowerL t) = true →
      relTypeOfVerb t = .FOUNDED) ∧
    (∀ t, verbMatch work_verbs (lowerL t) = false →
      verbMatch live_verbs (lowerL t) = false →
      verbMatch found_verbs (lowerL t) = false →
      verbMatch own_verbs (lowerL t) = true →
      relTypeOfVerb t = .OWNS) ∧
    (∀ t, verbMatch work_verbs (lowerL t) = false →
      verbMatch live_verbs (lowerL t) = false →
      verbMatch found_verbs (lowerL t) = false →
      verbMatch own_verbs (lowerL t) = false →
      relTypeOfVerb t = .RELATED_TO) := by
  refine ⟨?_, ?_, ?_, ?_, ?_⟩ <;> intro t <;> intros <;>
    simp_all [relTypeOfVerb]

/-- C9 witness: "works" is an employment verb and maps to WORKS_AT;
"visited" matches no list and maps to the default RELATED_TO. -/
theorem c9_verb_relation_mapping_witness :
    relTypeOfVerb (str "works") = .WORKS_AT ∧
    relTypeOfVerb (str "visited") = .RELATED_TO :=
  ⟨c9_verb_relation_mapping.1 (str "works") (by decide),
   c9_verb_relation_mapping.2.2.2.2 (str "visited") (by decide) (by decide)
     (by decide) (by decide)⟩

/-- C8: in model mode, a tagger span whose trimmed text is shorter than
2 characters is discarded (the state and mention list are unchanged),
and a retained span's native label is mapped through the fixed lookup
table: PERSON→Person, ORG→Company, GPE/LOC→Location, and every other
label — including all the listed Concept rows and any unlisted label —
to Concept; a newly created record carries exactly the mapped label. -/
theorem c8_span_filter_and_label_map :
    (∀ p ent, (stripChars ent.text).length < 2 → entStep p ent = p) ∧
    (spacyToLabel (str "PERSON") = .Person ∧
     spacyToLabel (str "ORG") = .Company ∧
     spacyToLabel (str "GPE") = .Location ∧
     spacyToLabel (str "LOC") = .Location ∧
     spacyToLabel (str "MONEY") = .Concept ∧
     spacyToLabel (str "DATE") = .Concept ∧
     spacyToLabel (str "TIME") = .Concept ∧
     spacyToLabel (str "PERCENT") = .Concept ∧
     spacyToLabel (str "QUANTITY") = .Concept ∧
     spacyToLabel (str "EVENT") = .Concept ∧
     spacyToLabel (str "PRODUCT") = .Concept ∧
     spacyToLabel (str "WORK_OF_ART") = .Concept ∧
     spacyToLabel (str "LAW") = .Concept ∧
     spacyToLabel (str "LANGUAGE") = .Concept ∧
     spacyToLabel (str "NORP") = .Concept) ∧
    (∀ l, l ∉ spacy_to_label.map Prod.fst → spacyToLabel l = .Concept) ∧
    (∀ p ent, 2 ≤ (stripChars ent.text).length →
      ∀ r ∈ (entStep p ent).1.entities,
        r ∈ p.1.entities ∨ r.label = spacyToLabel ent.label) := by
  refine ⟨?_, by decide, ?_, ?_⟩
  · intro p ent h
    unfold entStep
    simp [h]
  · intro l hl
    unfold spacyToLabel
    have : spacy_to_label.find? (fun p => decide (p.1 = l)) = none := by
      rw [List.find?_eq_none]
      intro a ha
      simp only [decide_eq_true_eq]
      intro hemm
      exact hl (hemm ▸ List.mem_map_of_mem Prod.fst ha)
    rw [this]
    rfl
  · intro p ent hlen r hr
    unfold entStep at hr
    rw [if_neg (by omega)] at hr
    simp only [] at hr
    split at hr
    · exact Or.inl hr
    · simp only [List.mem_append, List.mem_singleton] at hr
      rcases hr with hr | hr
      · exact Or.inl hr
      · exact Or.inr (by rw [hr])

/-- C8 witness: the one-character span "A" is discarded; the unlisted
label "ORDINAL" falls through to Concept; a retained "Acme"/ORG span
either was present or got label Company. -/
theorem c8_span_filter_and_label_map_witness :
    entStep (⟨[], [], [], []⟩, []) ⟨str "A", str "PERSON", 0, 1, 0, 1⟩ =
      ((⟨[], [], [], []⟩ : SpacyState), []) ∧
    spacyToLabel (str "ORDINAL") = .Concept ∧
    (∀ r ∈ (entStep ((⟨[], [], [], []⟩ : SpacyState), [])
        ⟨str "Acme", str "ORG", 0, 1, 0, 4⟩).1.entities,
      r ∈ ([] : List SpacyEntity) ∨ r.label = spacyToLabel (str "ORG")) :=
  ⟨c8_span_filter_and_label_map.1 _ _ (by decide),
   c8_span_filter_and_label_map.2.2.1 _ (by decide),
   c8_span_filter_and_label_map.2.2.2 _ _ (by decide)⟩

theorem addEntityOnce_mentions (acc : SimpleAcc) (id : List Char)
    (l : EntLabel) (n : List Char) (m : Option (List Char)) :
    (addEntityOnce acc id l n m).mentions = acc.mentions := by
  unfold addEntityOnce
  split <;> rfl

/-- C10: in fallback mode a paragraph's mention list can hold the same
id several times: the person-keyword branch and the company-indicator
branch append the resolved id unconditionally, while the
capitalized-name branch appends only when the id is absent from the
list; in particular the paragraph "alice alice" mentions `e_alice`
twice. -/
theorem c10_fallback_duplicate_mentions :
    (∀ acc w, lowerL (stripSet punctChars w) ∈ person_keywords →
      (personStep acc w).mentions =
        acc.mentions ++ [str "e_" ++ lowerL (stripSet punctChars w)]) ∧
    (∀ acc w, lowerL (stripSet punctChars w) ∉ person_keywords →
      isUpperC (w.headD ' ') = true → w.length > 3 →
      lowerL (stripSet punctChars w) ∉ simple_stopwords →
      (company_keywords.any
        (fun ck => subIn ck (lowerL (stripSet punctChars w)))) = false →
      (str "e_" ++ lowerL (stripSet punctChars w)) ∈ acc.mentions →
      (personStep acc w).mentions = acc.mentions) ∧
    (∀ prev acc w next rest,
      (lowerL (stripSet punctChars next) ∈ company_keywords ∨
        (company_keywords.any
          (fun ck => subIn ck (lowerL (stripSet punctChars next)))) = true) →
      companyLoop prev (w :: next :: rest) acc =
        companyLoop (some w) (next :: rest)
          ⟨(addEntityOnce acc
              (str "e_" ++ replaceSpUnd (lowerL (stripSet punctChars w)))
              .Company (stripSet punctChars w) none).entities,
            acc.mentions ++
              [str "e_" ++ replaceSpUnd (lowerL (stripSet punctChars w))]⟩) ∧
    (runSimple (str "alice alice")).paragraphs.map (·.entity_ids) =
      [[str "e_alice", str "e_alice"]] := by
  refine ⟨?_, ?_, ?_, by decide⟩
  · intro acc w hkw
    unfold personStep
    rw [if_pos hkw]
    simp [addEntityOnce_mentions]
  · intro acc w hkw hup hlen hstop hck hmem
    unfold personStep
    rw [if_neg hkw, if_pos ⟨hup, hlen, hstop, hck⟩]
    simp only [addEntityOnce_mentions]
    rw [if_pos hmem]
    exact addEntityOnce_mentions _ _ _ _ _
  · intro prev acc w next rest hcond
    conv_lhs => unfold companyLoop
    simp only []
    rw [if_pos hcond]
    simp [addEntityOnce_mentions]

/-- C10 witness: with an empty accumulator, the keyword branch appends
"e_alice"; with "e_delta" already mentioned, the capitalized branch
leaves the list unchanged. -/
theorem c10_fallback_duplicate_mentions_witness :
    (personStep ⟨[], []⟩ (str "alice")).mentions = [] ++ [str "e_alice"] ∧
    (personStep ⟨[⟨str "e_delta", .Person, str "Delta", none⟩],
        [str "e_delta"]⟩ (str "Delta")).mentions = [str "e_delta"] :=
  ⟨c10_fallback_duplicate_mentions.1 ⟨[], []⟩ (str "alice") (by decide),
   c10_fallback_duplicate_mentions.2.1 _ (str "Delta") (by decide) (by decide)
     (by decide) (by decide) (by decide) (by decide)⟩

theorem addEntityOnce_existing (acc : SimpleAcc) (id : List Char)
    (l : EntLabel) (n : List Char) (m : Option (List Char))
    (h : acc.entities.any (fun e => decide (e.id = id)) = true) :
    addEntityOnce acc id l n m = acc := by
  unfold addEntityOnce
  rw [if_pos h]

/-- C3 counterexample: in fallback mode the input "Bangalore" is matched
both by the capitalized-name Person rule and by the Location keyword
rule, yet only one EntityRecord (id `e_bangalore`, label Person)
exists, and both mentions resolve to that single id — refuting the
claim that mentions under different categories get distinct ids and
distinct records. -/
theorem c3_shared_id_across_categories_counterexample :
    (runSimple (str "Bangalore")).entities.map (fun e => (e.id, e.label)) =
      [(str "e_bangalore", .Person)] ∧
    (runSimple (str "Bangalore")).paragraphs.map (·.entity_ids) =
      [[str "e_bangalore", str "e_bangalore"]] := by
  exact ⟨by decide, by decide⟩

/-- C3 as amended: the fallback identity key is the uniform prefix
`e_` plus normalized text, with no category component: the create-once
check is keyed by the id alone, ignoring the later rule's category, so
a later rule firing on the same normalized text resolves to the
existing id without creating a record (first category wins), as on the
input "Delhi". -/
theorem c3_fallback_key_has_no_category :
    (∀ acc id l n m, acc.entities.any (fun e => decide (e.id = id)) = true →
      addEntityOnce acc id l n m = acc) ∧
    (∀ tl acc kw, subIn kw tl = true →
      acc.entities.any (fun e => decide (e.id = str "e_" ++ kw)) = true →
      (locationStep tl acc kw).entities = acc.entities ∧
      (locationStep tl acc kw).mentions = acc.mentions ++ [str "e_" ++ kw]) ∧
    (runSimple (str "Delhi")).entities.map (fun e => (e.id, e.label)) =
      [(str "e_delhi", .Person)] := by
  refine ⟨addEntityOnce_existing, ?_, by decide⟩
  intro tl acc kw hsub hid
  unfold locationStep
  rw [if_pos hsub]
  simp only [addEntityOnce_existing acc (str "e_" ++ kw) EntLabel.Location
    (capitalizeL kw) none hid]
  exact ⟨by trivial, by trivial⟩

/-- C3 witness: a record `e_delhi` created as Person swallows a later
Location-rule mention of the same normalized text. -/
theorem c3_fallback_key_has_no_category_witness :
    addEntityOnce ⟨[⟨str "e_delhi", .Person, str "Delhi", none⟩], []⟩
        (str "e_delhi") .Location (str "Delhi") none =
      ⟨[⟨str "e_delhi", .Person, str "Delhi", none⟩], []⟩ ∧
    (locationStep (str "delhi")
        ⟨[⟨str "e_delhi", .Person, str "Delhi", none⟩], [str "e_delhi"]⟩
        (str "delhi")).entities =
      [⟨str "e_delhi", .Person, str "Delhi", none⟩] :=
  ⟨c3_fallback_key_has_no_category.1 _ _ _ _ _ (by decide),
   (c3_fallback_key_has_no_category.2.1 _ _ _ (by decide) (by decide)).1⟩

theorem sameTriple_comm (a b : RelationshipRecord) :
    sameTriple a b = sameTriple b a := by
  unfold sameTriple
  rw [decide_eq_decide]
  constructor <;> rintro ⟨h1, h2, h3⟩ <;> exact ⟨h1.symm, h2.symm, h3.symm⟩

theorem tripleUnique_append (l : List RelationshipRecord)
    (r : RelationshipRecord) (h1 : tripleUnique l = true)
    (h2 : l.any (fun x => sameTriple x r) = false) :
    tripleUnique (l ++ [r]) = true := by
  induction l with
  | nil => simp [tripleUnique]
  | cons a t ih =>
    simp only [List.any_cons, Bool.or_eq_false_iff] at h2
    simp only [tripleUnique, Bool.and_eq_true, Bool.not_eq_true'] at h1
    simp only [List.cons_append, tripleUnique, Bool.and_eq_true,
      Bool.not_eq_true']
    refine ⟨?_, ih h1.2 h2.2⟩
    simp only [List.append_eq, List.any_append, List.any_cons, List.any_nil,
      Bool.or_eq_false_iff]
    exact ⟨h1.1, by rw [sameTriple_comm]; exact h2.1, trivial⟩

theorem tripleUnique_addRelIfNew (l : List RelationshipRecord)
    (r : RelationshipRecord) (h : tripleUnique l = true) :
    tripleUnique (addRelIfNew l r) = true := by
  unfold addRelIfNew
  split
  · exact h
  · rename_i hany
    exact tripleUnique_append l r h (Bool.eq_false_iff.mpr hany)

theorem entStep_fst_relationships (p : SpacyState × List (List Char))
    (ent : SpacyEnt) : (entStep p ent).1.relationships = p.1.relationships := by
  unfold entStep
  split
  · rfl
  · rcases hq : lookupKey p.1.keyMap (lowerL (stripChars ent.text), ent.label)
      with _ | eid <;> simp only [hq]

theorem entsFoldl_relationships :
    ∀ (ents : List SpacyEnt) (p : SpacyState × List (List Char)),
      (ents.foldl entStep p).1.relationships = p.1.relationships
  | [], _ => rfl
  | e :: es, p => by
    rw [List.foldl_cons, entsFoldl_relationships es (entStep p e),
      entStep_fst_relationships]

theorem tokenStep_tripleUnique (pid : Nat) (ents : List SpacyEnt)
    (st : SpacyState) (tok : SpacyToken)
    (h : tripleUnique st.relationships = true) :
    tripleUnique (tokenStep pid ents st tok).relationships = true := by
  unfold tokenStep
  repeat' split
  all_goals first
    | exact h
    | exact tripleUnique_addRelIfNew _ _ h

theorem coOccurLoop_tripleUnique (pid : Nat) (rt : RelType)
    (as bs : List (List Char)) (rels : List RelationshipRecord)
    (h : tripleUnique rels = true) :
    tripleUnique (coOccurLoop pid rt as bs rels) = true := by
  unfold coOccurLoop
  refine foldl_pres _ (fun l => tripleUnique l = true) ?_ as rels h
  intro s a hs
  refine foldl_pres _ (fun l => tripleUnique l = true) ?_ bs s hs
  intro s2 b hs2
  exact tripleUnique_addRelIfNew _ _ hs2

theorem spacyParaStep_tripleUnique (nlp : List Char → SpacyDoc)
    (st : SpacyState) (para : ParagraphUnit)
    (h : tripleUnique st.relationships = true) :
    tripleUnique (spacyParaStep nlp st para).relationships = true := by
  unfold spacyParaStep
  simp only []
  apply coOccurLoop_tripleUnique
  apply coOccurLoop_tripleUnique
  refine foldl_pres _
    (fun s : SpacyState => tripleUnique s.relationships = true) ?_ _ _ ?_
  · intro s a hs
    exact tokenStep_tripleUnique _ _ _ _ hs
  · show tripleUnique
      (List.foldl entStep (st, []) (nlp para.text).ents).1.relationships = true
    rw [entsFoldl_relationships]
    exact h

theorem extractEntitiesSpacy_tripleUnique (nlp : List Char → SpacyDoc)
    (paras : List ParagraphUnit) :
    tripleUnique (extractEntitiesSpacy nlp paras).relationships = true := by
  unfold extractEntitiesSpacy
  refine foldl_pres _
    (fun s : SpacyState => tripleUnique s.relationships = true) ?_ paras _ ?_
  · intro s a hs
    exact spacyParaStep_tripleUnique nlp s a hs
  · rfl

/-- C1 as amended: the document-wide `(start, end, type)` uniqueness
invariant holds in model mode, whose three insertion sites all run the
duplicate check (first writer wins); it does not hold in fallback mode,
whose relationship records are appended without any check. -/
theorem c1_model_mode_triple_unique (nlp : List Char → SpacyDoc)
    (raw : List Char) :
    tripleUnique (runSpacy nlp raw).relationships = true :=
  extractEntitiesSpacy_tripleUnique nlp (splitIntoParagraphs raw)

/-- C1 counterexample: in fallback mode the run on "alice acme inc"
emits the triple `(e_alice, e_acme, WORKS_AT)` twice (the last word
"inc" re-appends the company mention, and the cross product is written
without a duplicate check), so the claimed uniqueness fails. -/
theorem c1_fallback_duplicate_triple_counterexample :
    tripleUnique (runSimple (str "alice acme inc")).relationships = false ∧
    (runSimple (str "alice acme inc")).relationships.map
      (fun r => (r.start, r.endId, r.rtype)) =
      [(str "e_alice", str "e_acme", .WORKS_AT),
       (str "e_alice", str "e_acme", .WORKS_AT)] :=
  ⟨by decide, by decide⟩

theorem crossWorksAt_fields :
    ∀ (pid : Nat) (ps cs : List (List Char)) (r : RelationshipRecord),
      r ∈ crossWorksAt pid ps cs →
      r.rtype = .WORKS_AT ∧ r.verb = none ∧ r.confidence = none ∧
        r.method = none
  | _, [], _, r, h => by simp [crossWorksAt] at h
  | pid, p :: ps, cs, r, h => by
    simp only [crossWorksAt] at h
    rw [List.mem_append] at h
    rcases h with h | h
    · rcases List.mem_map.mp h with ⟨c, _, hc⟩
      subst hc
      exact ⟨rfl, rfl, rfl, rfl⟩
    · exact crossWorksAt_fields pid ps cs r h

theorem simpleParaStep_rel_fields (st : SimpleState) (para : ParagraphUnit)
    (h : ∀ r ∈ st.relationships,
      r.rtype = .WORKS_AT ∧ r.verb = none ∧ r.confidence = none ∧
        r.method = none) :
    ∀ r ∈ (simpleParaStep st para).relationships,
      r.rtype = .WORKS_AT ∧ r.verb = none ∧ r.confidence = none ∧
        r.method = none := by
  intro r hr
  unfold simpleParaStep at hr
  simp only [] at hr
  rw [List.mem_append] at hr
  rcases hr with hr | hr
  · exact h r hr
  · exact crossWorksAt_fields _ _ _ r hr

/-- C2 as amended: in fallback mode the entire relationship output is
the per-paragraph Person×Company WORKS_AT cross product, appended
unconditionally with metadata holding only the source paragraph id: no
record carries a confidence or a method (the "low"/"co_occurrence"
annotations exist only in model mode), and no LOCATED_IN record is
produced. -/
theorem c2_fallback_works_at_only (raw : List Char)
    (r : RelationshipRecord) (hr : r ∈ (runSimple raw).relationships) :
    r.rtype = .WORKS_AT ∧ r.verb = none ∧ r.confidence = none ∧
      r.method = none := by
  refine foldl_pres simpleParaStep
    (fun st : SimpleState => ∀ x ∈ st.relationships,
      x.rtype = .WORKS_AT ∧ x.verb = none ∧ x.confidence = none ∧
        x.method = none)
    ?_ (splitIntoParagraphs raw) ⟨[], [], []⟩ ?_ r hr
  · intro s a hs
    exact simpleParaStep_rel_fields s a hs
  · intro x hx
    exact absurd hx (List.not_mem_nil x)

/-- C2 witness: the WORKS_AT record of the run on "alice acme inc"
indeed has no confidence and no method metadata. -/
theorem c2_fallback_works_at_only_witness :
    (⟨str "e_alice", str "e_acme", .WORKS_AT, 1, none, none, none⟩ :
        RelationshipRecord) ∈ (runSimple (str "alice acme inc")).relationships ∧
    ((⟨str "e_alice", str "e_acme", .WORKS_AT, 1, none, none, none⟩ :
        RelationshipRecord).rtype = .WORKS_AT ∧
      (⟨str "e_alice", str "e_acme", .WORKS_AT, 1, none, none, none⟩ :
        RelationshipRecord).verb = none ∧
      (⟨str "e_alice", str "e_acme", .WORKS_AT, 1, none, none, none⟩ :
        RelationshipRecord).confidence = none ∧
      (⟨str "e_alice", str "e_acme", .WORKS_AT, 1, none, none, none⟩ :
        RelationshipRecord).method = none) :=
  ⟨by decide, c2_fallback_works_at_only (str "alice acme inc") _ (by decide)⟩

/-- C2 counterexample: the fallback run on "alice acme inc bangalore"
has a Company (`e_acme`) and a Location (`e_bangalore`) mentioned in
the same paragraph, yet produces no LOCATED_IN record at all, and its
only record — the Person×Company WORKS_AT — carries neither the
claimed confidence "low" nor the claimed method "co_occurrence". -/
theorem c2_fallback_no_co_occurrence_metadata_counterexample :
    (runSimple (str "alice acme inc bangalore")).paragraphs.map
      (·.entity_ids) =
      [[str "e_alice", str "e_acme", str "e_bangalore"]] ∧
    labelOfSimple (runSimple (str "alice acme inc bangalore")).entities
      (str "e_acme") = some .Company ∧
    labelOfSimple (runSimple (str "alice acme inc bangalore")).entities
      (str "e_bangalore") = some .Location ∧
    (runSimple (str "alice acme inc bangalore")).relationships.map
      (fun r => (r.start, r.endId, r.rtype, r.confidence, r.method)) =
      [(str "e_alice", str "e_acme", .WORKS_AT, none, none)] :=
  ⟨by decide, by decide, by decide, by rfl⟩

theorem dropWhile_head_not (p : Char → Bool) (l : List Char)
    (h : l.dropWhile p ≠ []) :
    ∃ c r, l.dropWhile p = c :: r ∧ p c = false := by
  induction l with
  | nil => exact absurd rfl h
  | cons c rest ih =>
    by_cases hc : p c = true
    · rw [List.dropWhile_cons_of_pos hc] at h ⊢
      exact ih h
    · rw [List.dropWhile_cons_of_neg hc]
      exact ⟨c, rest, rfl, Bool.eq_false_iff.mpr hc⟩

theorem stripChars_exists_nonspace (b : List Char) (h : stripChars b ≠ []) :
    ∃ c ∈ stripChars b, isSpaceC c = false := by
  unfold stripChars at h ⊢
  have h2 : (b.dropWhile isSpaceC).reverse.dropWhile isSpaceC ≠ [] := by
    intro hq
    rw [hq] at h
    exact h rfl
  obtain ⟨c, r, heq, hc⟩ := dropWhile_head_not isSpaceC _ h2
  refine ⟨c, ?_, hc⟩
  rw [heq]
  exact List.mem_reverse.mpr (List.mem_cons_self c r)

theorem splitWsAux_ne_nil_of_acc :
    ∀ (s acc : List Char), acc ≠ [] → splitWsAux s acc ≠ []
  | [], acc, h => by
    unfold splitWsAux
    rw [if_neg (by simpa [List.isEmpty_iff] using h)]
    simp
  | c :: rest, acc, h => by
    unfold splitWsAux
    split
    · rw [if_neg (by simpa [List.isEmpty_iff] using h)]
      simp
    · exact splitWsAux_ne_nil_of_acc rest (c :: acc) (by simp)

theorem splitWs_ne_nil (s : List Char) (h : ∃ c ∈ s, isSpaceC c = false) :
    splitWs s ≠ [] := by
  unfold splitWs
  induction s with
  | nil =>
    obtain ⟨c, hm, _⟩ := h
    exact absurd hm (List.not_mem_nil c)
  | cons c rest ih =>
    unfold splitWsAux
    by_cases hc : isSpaceC c = true
    · rw [if_pos hc]
      show splitWsAux rest [] ≠ []
      obtain ⟨c', hm, hns⟩ := h
      rcases List.mem_cons.mp hm with hq | hq
      · rw [hq] at hns
        rw [hns] at hc
        exact absurd hc (by simp)
      · exact ih ⟨c', hq, hns⟩
    · rw [if_neg hc]
      exact splitWsAux_ne_nil_of_acc rest [c] (by simp)

theorem splitWsAux_words :
    ∀ (s acc : List Char), (∀ c ∈ acc, isSpaceC c = false) →
      ∀ w ∈ splitWsAux s acc, w ≠ [] ∧ ∀ c ∈ w, isSpaceC c = false
  | [], acc, hacc => by
    unfold splitWsAux
    split
    · intro w hw
      exact absurd hw (List.not_mem_nil w)
    · rename_i hne
      intro w hw
      rw [List.mem_singleton] at hw
      subst hw
      refine ⟨?_, ?_⟩
      · simpa [List.isEmpty_iff] using hne
      · intro c hc
        exact hacc c (List.mem_reverse.mp hc)
  | c :: rest, acc, hacc => by
    unfold splitWsAux
    by_cases hc : isSpaceC c = true
    · rw [if_pos hc]
      split
      · exact splitWsAux_words rest [] (by simp)
      · rename_i hne
        intro w hw
        rcases List.mem_cons.mp hw with hq | hq
        · subst hq
          refine ⟨?_, ?_⟩
          · simpa [List.isEmpty_iff] using hne
          · intro x hx
            exact hacc x (List.mem_reverse.mp hx)
        · exact splitWsAux_words rest [] (by simp) w hq
    · rw [if_neg hc]
      refine splitWsAux_words rest (c :: acc) ?_
      intro x hx
      rcases List.mem_cons.mp hx with hq | hq
      · rw [hq]
        exact Bool.eq_false_iff.mpr hc
      · exact hacc x hq

theorem joinSpace_ne_nil :
    ∀ (ws : List (List Char)), ws ≠ [] → (∀ w ∈ ws, w ≠ []) →
      joinSpace ws ≠ []
  | [], h, _ => absurd rfl h
  | [w], _, hw => by simpa [joinSpace] using hw w (by simp)
  | w :: w₂ :: t, _, hw => by
    simp only [joinSpace]
    intro hq
    rw [List.append_eq_nil] at hq
    exact absurd hq.2 (by simp)

theorem normalizeWs_strip_ne (b : List Char) (h : stripChars b ≠ []) :
    normalizeWs (stripChars b) ≠ [] := by
  obtain ⟨c, hm, hc⟩ := stripChars_exists_nonspace b h
  unfold normalizeWs
  apply joinSpace_ne_nil
  · exact splitWs_ne_nil _ ⟨c, hm, hc⟩
  · intro w hw
    exact (splitWsAux_words (stripChars b) [] (by simp) w hw).1

theorem blockStep_idInv (s : List ParagraphUnit × Nat) (b : List Char)
    (h : paraIdInv s) : paraIdInv (blockStep s.1 s.2 b) := by
  unfold paraIdInv at h ⊢
  unfold blockStep
  simp only []
  split
  · exact h
  · rename_i ht
    split
    · split
      · rename_i p acc' heq
        rw [heq] at h
        obtain ⟨h1, h2⟩ := h
        constructor
        · simpa using h1
        · simp only [List.reverse_cons, List.map_append, List.map_cons,
            List.map_nil, List.length_cons] at h2 ⊢
          exact h2
      · rename_i heq
        split
        · exact h
        · rw [heq] at h
          obtain ⟨h1, h2⟩ := h
          simp only [List.length_nil] at h1
          rw [heq]
          constructor
          · simp [h1]
          · simp [h1, List.range_succ]
    · split
      · exact h
      · obtain ⟨h1, h2⟩ := h
        constructor
        · simp [h1]
        · simp only [List.reverse_cons, List.map_append, List.map_cons,
            List.map_nil, List.length_cons]
          rw [h2, h1, List.range_succ]
          simp

theorem splitIntoParagraphs_seq_ids (raw : List Char) :
    (splitIntoParagraphs raw).map ParagraphUnit.id =
      (List.range (splitIntoParagraphs raw).length).map (· + 1) := by
  have h := foldl_pres (fun s b => blockStep s.1 s.2 b) paraIdInv
    (fun s b => blockStep_idInv s b) (computeBlocks raw) ([], 0) ⟨rfl, rfl⟩
  unfold splitIntoParagraphs
  simp only []
  split
  · split
    · rfl
    · rfl
  · rw [List.length_reverse]
    exact h.2

/-- C4: a non-first stripped block shorter than 50 characters, with a
previously emitted paragraph available, creates no standalone
paragraph: the accumulator keeps its paragraphs and index, and the
block's stripped text is space-joined onto the previous paragraph's
text; a first block is emitted as its own paragraph regardless of
length; and paragraph ids are assigned sequentially as 1, 2, …
(modelling "p1", "p2", …) in emission order. -/
theorem c4_merge_rule :
    (∀ (p : ParagraphUnit) (acc' : List ParagraphUnit) (idx : Nat)
        (b : List Char), stripChars b ≠ [] → (stripChars b).length < 50 →
      blockStep (p :: acc') idx b =
        ({ p with text := p.text ++ ' ' :: stripChars b } :: acc', idx)) ∧
    (∀ (idx : Nat) (b : List Char), stripChars b ≠ [] →
      blockStep [] idx b =
        ([{ id := idx + 1, text := normalizeWs (stripChars b),
            entity_ids := [] }], idx + 1)) ∧
    (∀ raw, (splitIntoParagraphs raw).map ParagraphUnit.id =
      (List.range (splitIntoParagraphs raw).length).map (· + 1)) := by
  refine ⟨?_, ?_, splitIntoParagraphs_seq_ids⟩
  · intro p acc' idx b h1 h2
    unfold blockStep
    simp only []
    rw [if_neg h1, if_pos h2]
  · intro idx b h1
    unfold blockStep
    simp only []
    rw [if_neg h1]
    by_cases hlen : (stripChars b).length < 50
    · rw [if_pos hlen]
      show (if normalizeWs (stripChars b) = [] then _ else _) = _
      rw [if_neg (normalizeWs_strip_ne b h1)]
    · rw [if_neg hlen]
      rw [if_neg (normalizeWs_strip_ne b h1)]

/-- C4 witness: the 4-character block "tiny" is merged (space-joined)
into the previous paragraph without creating a new one, while the same
block as first block is emitted on its own with id 1. -/
theorem c4_merge_rule_witness :
    blockStep [{ id := 1, text := str "first", entity_ids := [] }] 1
        (str " tiny ") =
      ([{ id := 1, text := str "first" ++ ' ' :: stripChars (str " tiny "),
          entity_ids := [] }], 1) ∧
    blockStep [] 0 (str " tiny ") =
      ([{ id := 1, text := normalizeWs (stripChars (str " tiny ")),
          entity_ids := [] }], 1) :=
  ⟨c4_merge_rule.1 { id := 1, text := str "first", entity_ids := [] } [] 1
      (str " tiny ") (by decide) (by decide),
   c4_merge_rule.2.1 0 (str " tiny ") (by decide)⟩

theorem noDoubleSpace_append (w s : List Char)
    (hw : ∀ c ∈ w, isSpaceC c = false) (hs : noDoubleSpace s = true) :
    noDoubleSpace (w ++ s) = true := by
  induction w with
  | nil => simpa using hs
  | cons c w' ih =>
    have hc : isSpaceC c = false := hw c (List.mem_cons_self c w')
    have hw' : ∀ x ∈ w', isSpaceC x = false :=
      fun x hx => hw x (List.mem_cons_of_mem c hx)
    rw [List.cons_append]
    cases hq : w' ++ s with
    | nil => simp [noDoubleSpace]
    | cons d t =>
      simp only [noDoubleSpace, Bool.and_eq_true, Bool.not_eq_true']
      constructor
      · have hcc : c ≠ ' ' := by
          intro hcx
          rw [hcx] at hc
          simp [isSpaceC] at hc
        simp [hcc]
      · rw [← hq]
        exact ih hw'

theorem noDoubleSpace_of_spacefree (w : List Char)
    (hw : ∀ c ∈ w, isSpaceC c = false) : noDoubleSpace w = true := by
  have h := noDoubleSpace_append w [] hw rfl
  simpa using h

theorem joinSpace_head_mem (w : List Char) (ws : List (List Char))
    (h : w ≠ []) : ∃ d t, joinSpace (w :: ws) = d :: t ∧ d ∈ w := by
  cases w with
  | nil => exact absurd rfl h
  | cons c w' =>
    cases ws with
    | nil => exact ⟨c, w', rfl, List.mem_cons_self c w'⟩
    | cons w₂ ws' =>
      refine ⟨c, w' ++ ' ' :: joinSpace (w₂ :: ws'), ?_, List.mem_cons_self c w'⟩
      simp [joinSpace]

theorem joinSpace_noDbl :
    ∀ (ws : List (List Char)),
      (∀ w ∈ ws, w ≠ [] ∧ ∀ c ∈ w, isSpaceC c = false) →
      noDoubleSpace (joinSpace ws) = true
  | [], _ => rfl
  | [w], h => noDoubleSpace_of_spacefree w (h w (List.mem_cons_self w [])).2
  | w :: w₂ :: t, h => by
    simp only [joinSpace]
    apply noDoubleSpace_append w _ (h w (List.mem_cons_self w (w₂ :: t))).2
    have hw₂ := h w₂ (List.mem_cons_of_mem w (List.mem_cons_self w₂ t))
    obtain ⟨d, tt, hjs, hdmem⟩ := joinSpace_head_mem w₂ t hw₂.1
    rw [hjs]
    simp only [noDoubleSpace, Bool.and_eq_true, Bool.not_eq_true']
    constructor
    · have hd : d ≠ ' ' := by
        intro hdx
        have := hw₂.2 d hdmem
        rw [hdx] at this
        simp [isSpaceC] at this
      simp [hd]
    · rw [← hjs]
      exact joinSpace_noDbl (w₂ :: t)
        (fun x hx => h x (List.mem_cons_of_mem w hx))

theorem joinSpace_no_nl :
    ∀ (ws : List (List Char)),
      (∀ w ∈ ws, ∀ c ∈ w, isSpaceC c = false) →
      (joinSpace ws).all (fun c => decide (c ≠ '\n')) = true
  | [], _ => rfl
  | [w], h => by
    rw [List.all_eq_true]
    intro c hc
    have := h w (List.mem_cons_self w []) c (by simpa [joinSpace] using hc)
    simp only [decide_eq_true_eq]
    intro hq
    rw [hq] at this
    simp [isSpaceC] at this
  | w :: w₂ :: t, h => by
    simp only [joinSpace]
    rw [List.all_append, Bool.and_eq_true]
    constructor
    · rw [List.all_eq_true]
      intro c hc
      have := h w (List.mem_cons_self w (w₂ :: t)) c hc
      simp only [decide_eq_true_eq]
      intro hq
      rw [hq] at this
      simp [isSpaceC] at this
    · rw [List.all_cons, Bool.and_eq_true]
      exact ⟨by decide, joinSpace_no_nl (w₂ :: t)
        (fun x hx => h x (List.mem_cons_of_mem w hx))⟩

theorem normalizeWs_collapsed (s : List Char) :
    collapsedText (normalizeWs s) = true := by
  unfold collapsedText normalizeWs
  have hw := splitWsAux_words s [] (by simp)
  rw [Bool.and_eq_true]
  exact ⟨joinSpace_no_nl _ (fun w hww => (hw w hww).2),
    joinSpace_noDbl _ hw⟩

/-- C6 counterexample: the merge rule appends a short block stripped but
not collapsed, so merging the block "a\nb" into a 60-character
paragraph leaves a newline inside the emitted paragraph text, refuting
the claim that no newline appears in any paragraph, merged ones
included. -/
theorem c6_merged_newline_counterexample :
    (splitIntoParagraphs (List.replicate 60 'a' ++ str "\n\na\nb")).map
        ParagraphUnit.text =
      [List.replicate 60 'a' ++ ' ' :: str "a\nb"] ∧
    ((splitIntoParagraphs (List.replicate 60 'a' ++ str "\n\na\nb")).map
        (fun p => collapsedText p.text)).any (fun b => !b) = true :=
  ⟨by decide, by decide⟩

theorem mergeFiredFoldl_fst :
    ∀ (bs : List (List Char)) (s : (List ParagraphUnit × Nat) × Bool),
      (bs.foldl mergeFiredStep s).1 =
        bs.foldl (fun s b => blockStep s.1 s.2 b) s.1
  | [], _ => rfl
  | b :: bs, s => by
    rw [List.foldl_cons, List.foldl_cons,
      mergeFiredFoldl_fst bs (mergeFiredStep s b)]
    rfl

theorem mergeFiredStep_collapsed (s : (List ParagraphUnit × Nat) × Bool)
    (b : List Char)
    (h : s.2 = false → ∀ p ∈ s.1.1, collapsedText p.text = true) :
    (mergeFiredStep s b).2 = false →
      ∀ p ∈ (mergeFiredStep s b).1.1, collapsedText p.text = true := by
  intro hflag
  unfold mergeFiredStep at hflag ⊢
  simp only [] at hflag ⊢
  rw [Bool.or_eq_false_iff] at hflag
  have hprev := h hflag.1
  have hfired := hflag.2
  unfold blockStep
  simp only []
  split
  · exact hprev
  · rename_i ht
    split
    · rename_i hlen
      split
      · rename_i p acc' heq
        exfalso
        simp [ht, hlen, heq] at hfired
      · split
        · exact hprev
        · intro p hp
          rcases List.mem_cons.mp hp with hq | hq
          · subst hq
            exact normalizeWs_collapsed (stripChars b)
          · exact hprev p hq
    · split
      · exact hprev
      · intro p hp
        rcases List.mem_cons.mp hp with hq | hq
        · subst hq
          exact normalizeWs_collapsed (stripChars b)
        · exact hprev p hq

/-- C6 as amended: text appended by the merge rule is only stripped,
not collapsed, and can retain newlines; but on every run where no
candidate block triggers the merge rule (including runs whose first
block is short: with no previous paragraph it is emitted, normalized),
every paragraph text contains no newline and no run of consecutive
spaces. -/
theorem c6_collapsed_when_no_merge (raw : List Char)
    (h : anyMergeFired raw = false) :
    ∀ p ∈ splitIntoParagraphs raw, collapsedText p.text = true := by
  have key := foldl_pres mergeFiredStep
    (fun s : (List ParagraphUnit × Nat) × Bool =>
      s.2 = false → ∀ p ∈ s.1.1, collapsedText p.text = true)
    (fun s b => mergeFiredStep_collapsed s b) (computeBlocks raw)
    (([], 0), false) (fun _ p hp => absurd hp (List.not_mem_nil p))
  unfold anyMergeFired at h
  have hall := key h
  rw [mergeFiredFoldl_fst] at hall
  unfold splitIntoParagraphs
  simp only []
  split
  · split
    · intro p hp
      exact absurd hp (List.not_mem_nil p)
    · intro p hp
      rw [List.mem_singleton] at hp
      subst hp
      exact normalizeWs_collapsed raw
  · intro p hp
    exact hall p (List.mem_reverse.mp hp)

/-- C6 witness: a run whose first block is a short title line followed
by a long paragraph fires no merge, and the title paragraph's text is
collapsed. -/
theorem c6_collapsed_when_no_merge_witness :
    collapsedText
      ((⟨1, str "short title", []⟩ : ParagraphUnit)).text = true :=
  c6_collapsed_when_no_merge
    (str "short title\n\n" ++ List.replicate 60 'b')
    (by decide) _ (by decide)

theorem consHead_all (p : Char → Bool) (x : Char) (bs : List (List Char))
    (hx : p x = true) (hbs : ∀ b ∈ bs, b.all p = true) :
    ∀ b ∈ consHead x bs, b.all p = true := by
  cases bs with
  | nil =>
    intro b hb
    simp only [consHead] at hb
    rw [List.mem_singleton] at hb
    subst hb
    simp [hx]
  | cons b0 bs' =>
    intro b hb
    simp only [consHead] at hb
    rcases List.mem_cons.mp hb with hq | hq
    · subst hq
      rw [List.all_cons, Bool.and_eq_true]
      exact ⟨hx, hbs b0 (List.mem_cons_self _ _)⟩
    · exact hbs b (List.mem_cons_of_mem _ hq)

theorem splitNN_all : ∀ (raw : List Char), raw.all isSpaceC = true →
    ∀ b ∈ splitNN raw, b.all isSpaceC = true
  | [], _ => by
    intro b hb
    unfold splitNN at hb
    rw [List.mem_singleton] at hb
    subst hb
    rfl
  | c :: rest, h => by
    rw [List.all_cons, Bool.and_eq_true] at h
    unfold splitNN
    by_cases hc : c = '\n'
    · rw [if_pos hc]
      cases rest with
      | nil =>
        intro b hb
        rw [List.mem_singleton] at hb
        subst hb
        simp [h.1]
      | cons c₂ rest₂ =>
        simp only []
        have h2 := h.2
        rw [List.all_cons, Bool.and_eq_true] at h2
        by_cases hc₂ : c₂ = '\n'
        · rw [if_pos hc₂]
          intro b hb
          rcases List.mem_cons.mp hb with hq | hq
          · subst hq
            rfl
          · exact splitNN_all rest₂ h2.2 b hq
        · rw [if_neg hc₂]
          apply consHead_all _ _ _ h.1
          apply consHead_all _ _ _ h2.1
          exact splitNN_all rest₂ h2.2
    · rw [if_neg hc]
      apply consHead_all _ _ _ h.1
      exact splitNN_all rest h.2

theorem splitNL_all : ∀ (raw : List Char), raw.all isSpaceC = true →
    ∀ b ∈ splitNL raw, b.all isSpaceC = true
  | [], _ => by
    intro b hb
    unfold splitNL at hb
    rw [List.mem_singleton] at hb
    subst hb
    rfl
  | c :: rest, h => by
    rw [List.all_cons, Bool.and_eq_true] at h
    unfold splitNL
    by_cases hc : c = '\n'
    · rw [if_pos hc]
      intro b hb
      rcases List.mem_cons.mp hb with hq | hq
      · subst hq
        rfl
      · exact splitNL_all rest h.2 b hq
    · rw [if_neg hc]
      apply consHead_all _ _ _ h.1
      exact splitNL_all rest h.2

theorem stripChars_nil_of_all (s : List Char) (h : s.all isSpaceC = true) :
    stripChars s = [] := by
  unfold stripChars
  have h1 : s.dropWhile isSpaceC = [] := by
    rw [List.dropWhile_eq_nil_iff]
    intro x hx
    exact List.all_eq_true.mp h x hx
  rw [h1]
  rfl

theorem regroupLines_nil :
    ∀ (ls : List (List Char)), (∀ l ∈ ls, l.all isSpaceC = true) →
      regroupLines ls [] = []
  | [], _ => rfl
  | l :: ls, h => by
    unfold regroupLines
    simp only []
    rw [stripChars_nil_of_all l (h l (List.mem_cons_self _ _))]
    simp only [List.isEmpty_nil, if_pos]
    exact regroupLines_nil ls (fun x hx => h x (List.mem_cons_of_mem _ hx))

theorem foldl_blockStep_id :
    ∀ (bs : List (List Char)) (s : List ParagraphUnit × Nat),
      (∀ b ∈ bs, stripChars b = []) →
      bs.foldl (fun s b => blockStep s.1 s.2 b) s = s
  | [], _, _ => rfl
  | b :: bs, s, h => by
    rw [List.foldl_cons]
    have hb : blockStep s.1 s.2 b = (s.1, s.2) := by
      unfold blockStep
      simp only []
      rw [if_pos (h b (List.mem_cons_self _ _))]
    rw [hb, Prod.mk.eta]
    exact foldl_blockStep_id bs s (fun x hx => h x (List.mem_cons_of_mem _ hx))

theorem splitIntoParagraphs_nil_of_ws (raw : List Char)
    (h : raw.all isSpaceC = true) : splitIntoParagraphs raw = [] := by
  have hs : stripChars raw = [] := stripChars_nil_of_all raw h
  have hblocks : ∀ b ∈ computeBlocks raw, stripChars b = [] := by
    unfold computeBlocks
    simp only []
    split
    · intro b hb
      rw [regroupLines_nil _ (fun l hl => splitNL_all raw h l hl)] at hb
      exact absurd hb (List.not_mem_nil b)
    · intro b hb
      exact stripChars_nil_of_all b (splitNN_all raw h b hb)
  unfold splitIntoParagraphs
  simp only []
  rw [foldl_blockStep_id _ _ hblocks]
  rw [if_neg (by simp [hs])]
  rfl

/-- C7: an empty or whitespace-only raw text yields zero paragraphs,
zero entities and zero relationships in both extraction modes (and the
embedded pipeline is total, so no exception arises). -/
theorem c7_empty_input (raw : List Char) (nlp : List Char → SpacyDoc)
    (h : raw.all isSpaceC = true) :
    splitIntoParagraphs raw = [] ∧
    runSimple raw = ⟨[], [], []⟩ ∧
    runSpacy nlp raw = ⟨[], [], []⟩ := by
  have hnil := splitIntoParagraphs_nil_of_ws raw h
  refine ⟨hnil, ?_, ?_⟩
  · unfold runSimple
    rw [hnil]
    rfl
  · unfold runSpacy
    rw [hnil]
    rfl

/-- C7 witness: the whitespace-only input " \n\t " produces the empty
document result in both modes. -/
theorem c7_empty_input_witness :
    splitIntoParagraphs (str " \n\t ") = [] ∧
    runSimple (str " \n\t ") = ⟨[], [], []⟩ ∧
    runSpacy demoNlp (str " \n\t ") = ⟨[], [], []⟩ :=
  c7_empty_input (str " \n\t ") demoNlp (by decide)

theorem addEntityOnce_nodup (acc : SimpleAcc) (id : List Char)
    (l : EntLabel) (n : List Char) (m : Option (List Char))
    (h : (acc.entities.map (·.id)).Nodup) :
    ((addEntityOnce acc id l n m).entities.map (·.id)).Nodup := by
  unfold addEntityOnce
  split
  · exact h
  · rename_i hany
    simp only [List.map_append, List.map_cons, List.map_nil]
    rw [List.nodup_append]
    refine ⟨h, List.nodup_singleton _, ?_⟩
    intro a ha hb
    rw [List.mem_singleton] at hb
    subst hb
    rcases List.mem_map.mp ha with ⟨e, he, heq⟩
    apply hany
    rw [List.any_eq_true]
    exact ⟨e, he, by rw [decide_eq_true_eq]; exact heq⟩

theorem personStep_nodup (acc : SimpleAcc) (w : List Char)
    (h : (acc.entities.map (·.id)).Nodup) :
    ((personStep acc w).entities.map (·.id)).Nodup := by
  unfold personStep
  simp only []
  split
  · exact addEntityOnce_nodup _ _ _ _ _ h
  · split
    · split
      · exact addEntityOnce_nodup _ _ _ _ _ h
      · exact addEntityOnce_nodup _ _ _ _ _ h
    · exact h

theorem companyLoop_nodup :
    ∀ (ws : List (List Char)) (prev : Option (List Char)) (acc : SimpleAcc),
      (acc.entities.map (·.id)).Nodup →
      ((companyLoop prev ws acc).entities.map (·.id)).Nodup
  | [], _, _, h => h
  | w :: rest, prev, acc, h => by
    unfold companyLoop
    cases rest with
    | nil =>
      simp only []
      split
      · split
        · exact addEntityOnce_nodup _ _ _ _ _ h
        · exact h
      · exact h
    | cons next rest' =>
      simp only []
      apply companyLoop_nodup (next :: rest') (some w)
      split
      · exact addEntityOnce_nodup _ _ _ _ _ h
      · exact h

theorem locationStep_nodup (tl : List Char) (acc : SimpleAcc)
    (kw : List Char) (h : (acc.entities.map (·.id)).Nodup) :
    ((locationStep tl acc kw).entities.map (·.id)).Nodup := by
  unfold locationStep
  simp only []
  split
  · exact addEntityOnce_nodup _ _ _ _ _ h
  · exact h

theorem techStep_nodup (tl : List Char) (acc : SimpleAcc)
    (kw : List Char) (h : (acc.entities.map (·.id)).Nodup) :
    ((techStep tl acc kw).entities.map (·.id)).Nodup := by
  unfold techStep
  simp only []
  split
  · exact addEntityOnce_nodup _ _ _ _ _ h
  · exact h

theorem simpleParaStep_nodup (st : SimpleState) (para : ParagraphUnit)
    (h : (st.entities.map (·.id)).Nodup) :
    ((simpleParaStep st para).entities.map (·.id)).Nodup := by
  unfold simpleParaStep
  simp only []
  refine foldl_pres (techStep (lowerL para.text))
    (fun a : SimpleAcc => (a.entities.map (·.id)).Nodup) ?_ tech_keywords _ ?_
  · intro s a hs
    exact techStep_nodup _ _ _ hs
  · refine foldl_pres (locationStep (lowerL para.text))
      (fun a : SimpleAcc => (a.entities.map (·.id)).Nodup) ?_
      location_keywords _ ?_
    · intro s a hs
      exact locationStep_nodup _ _ _ hs
    · apply companyLoop_nodup
      refine foldl_pres personStep
        (fun a : SimpleAcc => (a.entities.map (·.id)).Nodup) ?_
        (splitWs para.text) _ ?_
      · intro s a hs
        exact personStep_nodup _ _ hs
      · exact h

theorem extractEntitiesSimple_nodup (paras : List ParagraphUnit) :
    ((extractEntitiesSimple paras).entities.map (·.id)).Nodup := by
  unfold extractEntitiesSimple
  refine foldl_pres simpleParaStep
    (fun st : SimpleState => (st.entities.map (·.id)).Nodup) ?_ paras _ ?_
  · intro s a hs
    exact simpleParaStep_nodup s a hs
  · exact List.nodup_nil

theorem lookupKey_none_not_mem (m : List ((List Char × List Char) × List Char))
    (k : List Char × List Char) (h : lookupKey m k = none) :
    k ∉ m.map Prod.fst := by
  unfold lookupKey at h
  rw [Option.map_eq_none'] at h
  intro hmem
  rcases List.mem_map.mp hmem with ⟨pair, hp, hpe⟩
  have hfind := List.find?_eq_none.mp h pair hp
  apply hfind
  rw [decide_eq_true_eq]
  exact hpe

theorem entStep_inv (p : SpacyState × List (List Char)) (ent : SpacyEnt)
    (h : spacyEntInv p.1) : spacyEntInv (entStep p ent).1 := by
  unfold entStep
  split
  · exact h
  · rcases hq : lookupKey p.1.keyMap (lowerL (stripChars ent.text), ent.label)
      with _ | eid
    all_goals simp only [hq]
    · obtain ⟨h1, h2, h3⟩ := h
      refine ⟨?_, ?_, ?_⟩
      · simp only [List.map_append, List.map_cons, List.map_nil]
        rw [h1]
        rfl
      · simp only [List.map_append, List.map_cons, List.map_nil]
        rw [List.nodup_append]
        refine ⟨h2, List.nodup_singleton _, ?_⟩
        intro a ha hb
        rw [List.mem_singleton] at hb
        subst hb
        exact lookupKey_none_not_mem _ _ hq ha
      · intro r hr
        rcases List.mem_append.mp hr with hr | hr
        · exact h3 r hr
        · rw [List.mem_singleton] at hr
          subst hr
          rfl
    · exact h

theorem entsFoldl_inv :
    ∀ (ents : List SpacyEnt) (p : SpacyState × List (List Char)),
      spacyEntInv p.1 → spacyEntInv ((ents.foldl entStep p).1)
  | [], _, h => h
  | e :: es, p, h => by
    rw [List.foldl_cons]
    exact entsFoldl_inv es (entStep p e) (entStep_inv p e h)

theorem tokenStep_entities (pid : Nat) (ents : List SpacyEnt)
    (st : SpacyState) (tok : SpacyToken) :
    (tokenStep pid ents st tok).entities = st.entities ∧
      (tokenStep pid ents st tok).keyMap = st.keyMap := by
  unfold tokenStep
  repeat' split
  all_goals exact ⟨rfl, rfl⟩

theorem tokensFoldl_entities :
    ∀ (toks : List SpacyToken) (pid : Nat) (ents : List SpacyEnt)
      (st : SpacyState),
      (toks.foldl (tokenStep pid ents) st).entities = st.entities ∧
        (toks.foldl (tokenStep pid ents) st).keyMap = st.keyMap
  | [], _, _, _ => ⟨rfl, rfl⟩
  | t :: ts, pid, ents, st => by
    rw [List.foldl_cons]
    have h1 := tokensFoldl_entities ts pid ents (tokenStep pid ents st t)
    have h2 := tokenStep_entities pid ents st t
    exact ⟨h1.1.trans h2.1, h1.2.trans h2.2⟩

theorem spacyParaStep_inv (nlp : List Char → SpacyDoc) (st : SpacyState)
    (para : ParagraphUnit) (h : spacyEntInv st) :
    spacyEntInv (spacyParaStep nlp st para) := by
  have hents : spacyEntInv ((nlp para.text).ents.foldl entStep (st, [])).1 :=
    entsFoldl_inv _ _ h
  have htok := tokensFoldl_entities (nlp para.text).tokens para.id
    (nlp para.text).ents ((nlp para.text).ents.foldl entStep (st, [])).1
  unfold spacyParaStep
  simp only []
  unfold spacyEntInv at hents ⊢
  rw [htok.1, htok.2]
  exact hents

theorem extractEntitiesSpacy_inv (nlp : List Char → SpacyDoc)
    (paras : List ParagraphUnit) :
    spacyEntInv (extractEntitiesSpacy nlp paras) := by
  unfold extractEntitiesSpacy
  refine foldl_pres (spacyParaStep nlp) spacyEntInv ?_ paras _ ?_
  · intro s a hs
    exact spacyParaStep_inv nlp s a hs
  · exact ⟨rfl, List.nodup_nil, fun r hr => absurd hr (List.not_mem_nil r)⟩

theorem spacy_ids_nodup_of_inj (st : SpacyState) (hinv : spacyEntInv st)
    (hinj : ∀ k₁ ∈ st.entities.map spacyKey, ∀ k₂ ∈ st.entities.map spacyKey,
      spacyId k₁ = spacyId k₂ → k₁ = k₂) :
    (st.entities.map (·.id)).Nodup := by
  obtain ⟨h1, h2, h3⟩ := hinv
  have hkeys : (st.entities.map spacyKey).Nodup := h1 ▸ h2
  have hmapeq : st.entities.map (·.id) =
      (st.entities.map spacyKey).map spacyId := by
    rw [List.map_map]
    exact List.map_congr_left h3
  rw [hmapeq]
  exact hkeys.map_on hinj

set_option maxRecDepth 16384 in
/-- C5: within one document run no identity key is bound to two ids and
no id is re-bound: in fallback mode the entity ids never repeat across
records; in model mode the records' identity keys never repeat and each
record's id is the deterministic encoding of its key, so (encoding
collisions aside, as hypothesised) ids never repeat either; resolving a
known key (model mode) or a known id (fallback) returns the existing
record untouched, appending only the mention; and the same person
keyword in two separate fallback paragraphs yields exactly one
EntityRecord referenced by both paragraphs' mention lists. -/
theorem c5_identity_resolution :
    (∀ paras, ((extractEntitiesSimple paras).entities.map (·.id)).Nodup) ∧
    (∀ (nlp : List Char → SpacyDoc) (paras : List ParagraphUnit),
      ((extractEntitiesSpacy nlp paras).entities.map spacyKey).Nodup ∧
      ∀ r ∈ (extractEntitiesSpacy nlp paras).entities,
        r.id = spacyId (spacyKey r)) ∧
    (∀ (nlp : List Char → SpacyDoc) (paras : List ParagraphUnit),
      (∀ k₁ ∈ (extractEntitiesSpacy nlp paras).entities.map spacyKey,
        ∀ k₂ ∈ (extractEntitiesSpacy nlp paras).entities.map spacyKey,
          spacyId k₁ = spacyId k₂ → k₁ = k₂) →
      ((extractEntitiesSpacy nlp paras).entities.map (·.id)).Nodup) ∧
    (∀ (p : SpacyState × List (List Char)) (ent : SpacyEnt) (eid : List Char),
      2 ≤ (stripChars ent.text).length →
      lookupKey p.1.keyMap (lowerL (stripChars ent.text), ent.label) =
        some eid →
      entStep p ent = (p.1, p.2 ++ [eid])) ∧
    (∀ (acc : SimpleAcc) (id : List Char) (l : EntLabel) (n : List Char)
        (m : Option (List Char)),
      acc.entities.any (fun e => decide (e.id = id)) = true →
      addEntityOnce acc id l n m = acc) ∧
    ((runSimple twoParagraphDemo).entities.map (·.id) = [str "e_alice"] ∧
      (runSimple twoParagraphDemo).paragraphs.map (·.entity_ids) =
        [[str "e_alice"], [str "e_alice"]]) := by
  refine ⟨extractEntitiesSimple_nodup, ?_, ?_, ?_, addEntityOnce_existing,
    by decide, by decide⟩
  · intro nlp paras
    obtain ⟨h1, h2, h3⟩ := extractEntitiesSpacy_inv nlp paras
    exact ⟨h1 ▸ h2, h3⟩
  · intro nlp paras hinj
    exact spacy_ids_nodup_of_inj _ (extractEntitiesSpacy_inv nlp paras) hinj
  · intro p ent eid hlen hlk
    unfold entStep
    rw [if_neg (by omega)]
    simp only [hlk]

set_option maxRecDepth 16384 in
/-- C5 witness: the demo tagger's two keys have injective encodings so
the model-mode ids are duplicate-free; resolving the known key
("alice", PERSON) appends the stored id without touching the state;
resolving a known fallback id ignores the later category. -/
theorem c5_identity_resolution_witness :
    ((extractEntitiesSpacy demoNlp
        (splitIntoParagraphs (str "Alice works at Acme"))).entities.map
        (·.id)).Nodup ∧
    entStep ((⟨[], [((str "alice", str "PERSON"), str "e_x")], [], []⟩ :
          SpacyState), [])
        ⟨str "Alice", str "PERSON", 0, 1, 0, 5⟩ =
      ((⟨[], [((str "alice", str "PERSON"), str "e_x")], [], []⟩ :
          SpacyState), [str "e_x"]) ∧
    addEntityOnce ⟨[⟨str "e_alice", .Person, str "Alice", none⟩], []⟩
        (str "e_alice") .Company (str "alice") none =
      ⟨[⟨str "e_alice", .Person, str "Alice", none⟩], []⟩ :=
  ⟨c5_identity_resolution.2.2.1 demoNlp _ (by decide),
   c5_identity_resolution.2.2.2.1 _ _ _ (by decide) (by decide),
   c5_identity_resolution.2.2.2.2.1 _ _ _ _ _ (by decide)⟩
